import Mathlib

/-!
Verification of the singly linked list module in `src/list.c`.

A C list is a chain of `struct ll_node` cells, each holding an `int data`
and a `next` pointer; `NULL` denotes the empty list.  We embed a list as
the Lean `List Int` of its node values in traversal order (so `[]` models
the `NULL` head).  A `malloc`-ed `int` array pointer is embedded as
`Option (List Int)`, where `none` models a `NULL` pointer.  Allocation is
assumed to succeed; the number of nodes a call allocates is tracked
separately where a claim needs it (`ll_append_allocs`).

For the claims that speak about pointer identity of nodes (which node the
returned head reference is), we use a second embedding `List LLNode` in
which every node carries its address `addr` alongside its value, so that
two distinct nodes holding equal values stay distinguishable.
-/

/-- A list node with its address made explicit: `addr` models the `struct
ll_node *` pointer value, `data` the stored `int`.  Equality of `LLNode`s
models pointer equality (two live nodes are equal iff they are the same
cell). -/
structure LLNode where
  addr : Nat
  data : Int
deriving DecidableEq

/-- `ll_size` (src/list.c:36-44): walks the chain counting nodes; the C
`count` is an `int`, embedded as `Int`. -/
def ll_size : List Int → Int
  | [] => 0
  | _ :: t => 1 + ll_size t

/-- `ll_find` (src/list.c:53-60): walks the chain and returns the first
node whose `data` equals `value`, or `NULL`.  A returned node pointer is
embedded as the suffix of the list starting at that node; `none` models
the `NULL` return. -/
def ll_find : List Int → Int → Option (List Int)
  | [], _ => none
  | x :: t, value => if x = value then some (x :: t) else ll_find t value

/-- The copy loop of `ll_toarray` (src/list.c:78-83): `while (cur && i < n)`
copies node values in order; the second argument is the remaining bound
`n - i`. -/
def toarrayLoop : List Int → Nat → List Int
  | [], _ => []
  | _ :: _, 0 => []
  | x :: t, n + 1 => x :: toarrayLoop t n

/-- `ll_toarray` (src/list.c:69-85): returns `NULL` for a `NULL` head (the
redundant `n == 0` check can only fire then), otherwise a fresh array of
the `ll_size` node values in traversal order.  `malloc` is assumed to
succeed. -/
def ll_toarray (head : List Int) : Option (List Int) :=
  if head = [] then none
  else some (toarrayLoop head (ll_size head).toNat)

/-- `ll_create` (src/list.c:93-99): a fresh single node holding `data`
(allocation assumed to succeed). -/
def ll_create (data : Int) : List Int := [data]

/-- `ll_append` (src/list.c:124-131): returns immediately on a `NULL`
head; otherwise walks to the tail with `ll_tail` and links one fresh node
holding `data` after it. -/
def ll_append (head : List Int) (data : Int) : List Int :=
  if head = [] then head else head ++ [data]

/-- Number of nodes `ll_append` allocates: `0` on the early `NULL`-head
return (src/list.c:125, before any `ll_create`), `1` otherwise
(allocation assumed to succeed). -/
def ll_append_allocs (head : List Int) (_data : Int) : Nat :=
  if head = [] then 0 else 1

/-- `ll_fromarray` (src/list.c:140-158): `NULL` for a `NULL` array pointer
or `len <= 0`; otherwise a fresh chain of the first `len` array elements
in order (`data[0]` becoming the head, `data[1] .. data[len-1]` appended).
Allocation is assumed to succeed, so the cleanup branch is dead.  The C
code reads exactly `data[0] .. data[len-1]`; the model is meaningful when
`len` does not exceed the array length (beyond it the C read is
undefined). -/
def ll_fromarray (data : Option (List Int)) (len : Int) : Option (List Int) :=
  match data with
  | none => none
  | some a => if len ≤ 0 then none else some (a.take len.toNat)

/-- The `prev`/`cur` scan of `ll_remove` (src/list.c:178-190): unlinks and
frees the first node of the tail whose `data` equals `value`; if none
matches, the chain is left unchanged. -/
def ll_remove_aux : List Int → Int → List Int
  | [], _ => []
  | c :: rest, value => if c = value then rest else c :: ll_remove_aux rest value

/-- `ll_remove` (src/list.c:168-191): `NULL` head returns `NULL`; a head
whose `data` equals `value` is freed and its successor returned as the new
head; otherwise the `prev`/`cur` scan removes the first match in the tail
and the original head is returned. -/
def ll_remove (head : List Int) (value : Int) : List Int :=
  match head with
  | [] => []
  | h :: t => if h = value then t else h :: ll_remove_aux t value

/-- The `prev`/`cur` scan of `ll_remove`, on the node model (same code,
comparing `cur->data` with `value`). -/
def ll_removeN_aux : List LLNode → Int → List LLNode
  | [], _ => []
  | c :: rest, value => if c.data = value then rest else c :: ll_removeN_aux rest value

/-- `ll_remove` (src/list.c:168-191) on the node model, keeping node
identities so that the returned head reference can be compared with the
input head reference. -/
def ll_removeN (head : List LLNode) (value : Int) : List LLNode :=
  match head with
  | [] => []
  | h :: t => if h.data = value then t else h :: ll_removeN_aux t value

/-- Spec-level description of removal, written from the claim's words:
"the value sequence of L with the first occurrence of v deleted (and the
original sequence when v does not occur)".  To be compared with
`ll_remove`, which is transcribed from the code. -/
def eraseFirstOcc : List Int → Int → List Int
  | [], _ => []
  | x :: t, v => if x = v then t else x :: eraseFirstOcc t v

/-! ### Helper lemmas -/

theorem ll_size_eq_length (L : List Int) : ll_size L = (L.length : Int) := by
  induction L with
  | nil => rfl
  | cons x t ih =>
    simp only [ll_size, ih, List.length_cons]
    push_cast
    ring

theorem toarrayLoop_length (L : List Int) : toarrayLoop L L.length = L := by
  induction L with
  | nil => rfl
  | cons x t ih => simp [toarrayLoop, ih]

theorem ll_toarray_of_ne_nil (L : List Int) (h : L ≠ []) : ll_toarray L = some L := by
  simp [ll_toarray, h, ll_size_eq_length, toarrayLoop_length]

theorem ll_find_eq_none_iff (L : List Int) (v : Int) :
    ll_find L v = none ↔ v ∉ L := by
  induction L with
  | nil => simp [ll_find]
  | cons x t ih =>
    by_cases hx : x = v
    · subst hx
      simp [ll_find]
    · simp [ll_find, hx, ih, Ne.symm hx]

theorem ll_find_eq_some (L : List Int) (v : Int) (s : List Int)
    (h : ll_find L v = some s) :
    ∃ p, L = p ++ s ∧ v ∉ p ∧ s.head? = some v := by
  induction L with
  | nil => simp [ll_find] at h
  | cons x t ih =>
    by_cases hx : x = v
    · subst hx
      simp [ll_find] at h
      exact ⟨[], by simp [← h], by simp, by rw [← h]; rfl⟩
    · simp only [ll_find, if_neg hx] at h
      obtain ⟨p, hp, hvp, hs⟩ := ih h
      exact ⟨x :: p, by simp [hp], by simp [hvp, Ne.symm hx], hs⟩

theorem ll_remove_aux_eq (t : List Int) (v : Int) :
    ll_remove_aux t v = eraseFirstOcc t v := by
  induction t with
  | nil => rfl
  | cons x r ih => by_cases hx : x = v <;> simp [ll_remove_aux, eraseFirstOcc, hx, ih]

theorem ll_remove_eq_eraseFirstOcc (L : List Int) (v : Int) :
    ll_remove L v = eraseFirstOcc L v := by
  cases L with
  | nil => rfl
  | cons x t =>
    by_cases hx : x = v <;> simp [ll_remove, eraseFirstOcc, hx, ll_remove_aux_eq]

theorem eraseFirstOcc_length (L : List Int) (v : Int) (h : v ∈ L) :
    (eraseFirstOcc L v).length + 1 = L.length := by
  induction L with
  | nil => simp at h
  | cons x t ih =>
    by_cases hx : x = v
    · simp [eraseFirstOcc, hx]
    · have ht : v ∈ t := by
        rcases List.mem_cons.mp h with h1 | h1
        · exact absurd h1.symm hx
        · exact h1
      simp [eraseFirstOcc, hx, ih ht]

theorem eraseFirstOcc_count (L : List Int) (v : Int) (h : v ∈ L) :
    (eraseFirstOcc L v).count v + 1 = L.count v := by
  induction L with
  | nil => simp at h
  | cons x t ih =>
    by_cases hx : x = v
    · simp [eraseFirstOcc, hx, List.count_cons]
    · have ht : v ∈ t := by
        rcases List.mem_cons.mp h with h1 | h1
        · exact absurd h1.symm hx
        · exact h1
      simp [eraseFirstOcc, hx, List.count_cons, ih ht]

theorem eraseFirstOcc_not_mem (L : List Int) (v : Int) (h : L.count v = 1) :
    v ∉ eraseFirstOcc L v := by
  have hm : v ∈ L := by
    by_contra hv
    rw [List.count_eq_zero_of_not_mem hv] at h
    exact one_ne_zero h.symm
  have hc := eraseFirstOcc_count L v hm
  rw [h] at hc
  have : (eraseFirstOcc L v).count v = 0 := by omega
  exact List.count_eq_zero.mp this

theorem ll_removeN_aux_of_not_mem (L : List LLNode) (v : Int)
    (h : ∀ n ∈ L, n.data ≠ v) : ll_removeN_aux L v = L := by
  induction L with
  | nil => rfl
  | cons x t ih =>
    have hx : x.data ≠ v := h x (List.mem_cons_self x t)
    have ht : ∀ n ∈ t, n.data ≠ v := fun n hn => h n (List.mem_cons_of_mem x hn)
    simp [ll_removeN_aux, hx, ih ht]

/-! ### Claims -/

/-- C1: for every non-empty list `L`, `ll_size L` equals the length of the
array produced by `ll_toarray L`. -/
theorem claim_C1 (L : List Int) (h : L ≠ []) :
    ∃ a, ll_toarray L = some a ∧ ll_size L = (a.length : Int) :=
  ⟨L, ll_toarray_of_ne_nil L h, ll_size_eq_length L⟩

/-- Witness for C1 at `L = [1, 2, 3]`. -/
theorem claim_C1_witness :
    ([1, 2, 3] : List Int) ≠ [] ∧
      ∃ a, ll_toarray [1, 2, 3] = some a ∧ ll_size [1, 2, 3] = (a.length : Int) :=
  ⟨by decide, claim_C1 [1, 2, 3] (by decide)⟩

/-- C2: rebuilding a non-empty list from its `ll_toarray` array (with
length `ll_size L`) via `ll_fromarray` reproduces the same value sequence. -/
theorem claim_C2 (L : List Int) (h : L ≠ []) :
    ll_fromarray (ll_toarray L) (ll_size L) = some L := by
  rw [ll_toarray_of_ne_nil L h, ll_size_eq_length]
  have hpos : 0 < L.length := List.length_pos.mpr h
  have hle : ¬ ((L.length : Int) ≤ 0) := by omega
  simp [ll_fromarray, hle]

/-- Witness for C2 at `L = [4, 5]`. -/
theorem claim_C2_witness :
    ([4, 5] : List Int) ≠ [] ∧
      ll_fromarray (ll_toarray [4, 5]) (ll_size [4, 5]) = some [4, 5] :=
  ⟨by decide, claim_C2 [4, 5] (by decide)⟩

/-- C3: when `v` occurs exactly once in `L`, `ll_remove L v` has size
`ll_size L - 1` and `ll_find` of the result at `v` is empty. -/
theorem claim_C3 (L : List Int) (v : Int) (h : L.count v = 1) :
    ll_size (ll_remove L v) = ll_size L - 1 ∧ ll_find (ll_remove L v) v = none := by
  have hm : v ∈ L := by
    by_contra hv
    rw [List.count_eq_zero_of_not_mem hv] at h
    exact one_ne_zero h.symm
  rw [ll_remove_eq_eraseFirstOcc]
  constructor
  · rw [ll_size_eq_length, ll_size_eq_length]
    have := eraseFirstOcc_length L v hm
    omega
  · exact (ll_find_eq_none_iff _ v).mpr (eraseFirstOcc_not_mem L v h)

/-- Witness for C3 at `L = [1, 2, 3]`, `v = 2`. -/
theorem claim_C3_witness :
    ([1, 2, 3] : List Int).count 2 = 1 ∧
      (ll_size (ll_remove [1, 2, 3] 2) = ll_size [1, 2, 3] - 1 ∧
        ll_find (ll_remove [1, 2, 3] 2) 2 = none) :=
  ⟨by decide, claim_C3 [1, 2, 3] 2 (by decide)⟩

/-- C4: `ll_remove` returns the empty reference iff the list was empty or
the removal deleted the sole remaining node; and the returned head node
differs from the input head node only when the removed node was the
original head (stated on the node model, where node equality models
pointer equality). -/
theorem claim_C4 (L : List LLNode) (v : Int) :
    (ll_removeN L v = [] ↔ L = [] ∨ ∃ n, L = [n] ∧ n.data = v) ∧
      ((ll_removeN L v).head? ≠ L.head? → ∃ n t, L = n :: t ∧ n.data = v) := by
  cases L with
  | nil => simp [ll_removeN]
  | cons n t =>
    by_cases hn : n.data = v
    · refine ⟨?_, fun _ => ⟨n, t, rfl, hn⟩⟩
      simp only [ll_removeN, if_pos hn]
      constructor
      · rintro rfl
        exact Or.inr ⟨n, rfl, hn⟩
      · rintro (h | ⟨m, hm, _⟩)
        · exact absurd h (List.cons_ne_nil n t)
        · exact (List.cons.injEq n t m []).mp hm |>.2
    · simp [ll_removeN, hn]

/-- Witness for C4 at `L = [⟨0, 3⟩]`, `v = 3` (removing the sole node
yields the empty reference). -/
theorem claim_C4_witness :
    ll_removeN [⟨0, 3⟩] 3 = [] :=
  (claim_C4 [⟨0, 3⟩] 3).1.mpr (Or.inr ⟨⟨0, 3⟩, rfl, rfl⟩)

/-- C5: `ll_append` on an empty head is a no-op: the result is still the
empty list, the size before and after is `0`, and no node is allocated. -/
theorem claim_C5 (v : Int) :
    ll_append [] v = [] ∧ ll_size (ll_append ([] : List Int) v) = 0 ∧
      ll_size ([] : List Int) = 0 ∧ ll_append_allocs [] v = 0 := by
  refine ⟨rfl, ?_, rfl, rfl⟩
  simp [ll_append, ll_size]

/-- Witness for C5 at `v = 42`. -/
theorem claim_C5_witness :
    ll_append [] 42 = [] ∧ ll_size (ll_append ([] : List Int) 42) = 0 ∧
      ll_size ([] : List Int) = 0 ∧ ll_append_allocs [] 42 = 0 :=
  claim_C5 42

/-- C6: `ll_find L v` is empty iff `v` does not occur in `L`; and any node
it returns is the first node in traversal order whose value is `v` (no
node of the strictly earlier part of the chain holds `v`). -/
theorem claim_C6 (L : List Int) (v : Int) :
    (ll_find L v = none ↔ v ∉ L) ∧
      ∀ s, ll_find L v = some s →
        ∃ p, L = p ++ s ∧ v ∉ p ∧ s.head? = some v :=
  ⟨ll_find_eq_none_iff L v, fun s hs => ll_find_eq_some L v s hs⟩

/-- Witness for C6 at `L = [3]`, `v = 5` (absent value gives an empty
find). -/
theorem claim_C6_witness : ll_find [3] 5 = none :=
  (claim_C6 [3] 5).1.mpr (by decide)

/-- C7: when `v` does not occur among the node values, `ll_remove` leaves
the chain untouched (same head node, same nodes, same values), so the
`ll_toarray` output is unchanged (stated on the node model). -/
theorem claim_C7 (L : List LLNode) (v : Int) (h : v ∉ L.map LLNode.data) :
    ll_removeN L v = L ∧
      ll_toarray ((ll_removeN L v).map LLNode.data) = ll_toarray (L.map LLNode.data) := by
  have hall : ∀ n ∈ L, n.data ≠ v := by
    intro n hn he
    exact h (List.mem_map.mpr ⟨n, hn, he⟩)
  have hid : ll_removeN L v = L := by
    cases L with
    | nil => rfl
    | cons x t =>
      have hx : x.data ≠ v := hall x (List.mem_cons_self x t)
      have ht : ∀ n ∈ t, n.data ≠ v := fun n hn => hall n (List.mem_cons_of_mem x hn)
      simp [ll_removeN, hx, ll_removeN_aux_of_not_mem t v ht]
  exact ⟨hid, by rw [hid]⟩

/-- Witness for C7 at `L = [⟨0, 1⟩]`, `v = 2`. -/
theorem claim_C7_witness :
    (2 : Int) ∉ ([⟨0, 1⟩] : List LLNode).map LLNode.data ∧
      (ll_removeN [⟨0, 1⟩] 2 = [⟨0, 1⟩] ∧
        ll_toarray ((ll_removeN [⟨0, 1⟩] 2).map LLNode.data) =
          ll_toarray (([⟨0, 1⟩] : List LLNode).map LLNode.data)) :=
  ⟨by decide, claim_C7 [⟨0, 1⟩] 2 (by decide)⟩

/-- C8: `ll_fromarray` returns the empty reference whenever `len ≤ 0` or
the array pointer is `NULL`; in particular `fromArray([], 0)` is empty and
`fromArray([7], 1)` is a one-node list holding `7`. -/
theorem claim_C8 (data : Option (List Int)) (len : Int)
    (h : len ≤ 0 ∨ data = none) :
    ll_fromarray data len = none ∧
      ll_fromarray (some []) 0 = none ∧
      ll_fromarray (some [7]) 1 = some [7] := by
  refine ⟨?_, by simp [ll_fromarray], by simp [ll_fromarray]⟩
  rcases h with hlen | hdata
  · cases data with
    | none => rfl
    | some a => simp [ll_fromarray, hlen]
  · rw [hdata]
    rfl

/-- Witness for C8 at `data = some []`, `len = 0`. -/
theorem claim_C8_witness :
    ((0 : Int) ≤ 0 ∨ (some [] : Option (List Int)) = none) ∧
      (ll_fromarray (some []) 0 = none ∧
        ll_fromarray (some []) 0 = none ∧
        ll_fromarray (some [7]) 1 = some [7]) :=
  ⟨Or.inl (by decide), claim_C8 (some []) 0 (Or.inl (by decide))⟩

/-- C9: for an array `a` of length `len ≥ 1`, `ll_fromarray` builds a list
of size `len` whose `ll_toarray` reproduces exactly `a[0..len-1]` in
order. -/
theorem claim_C9 (a : List Int) (len : Int)
    (h1 : len = (a.length : Int)) (h2 : 1 ≤ len) :
    ∃ l, ll_fromarray (some a) len = some l ∧ ll_size l = len ∧
      ll_toarray l = some a := by
  subst h1
  have hne : a ≠ [] := by
    intro hnil
    rw [hnil] at h2
    simp at h2
  refine ⟨a, ?_, ll_size_eq_length a, ll_toarray_of_ne_nil a hne⟩
  have hle : ¬ ((a.length : Int) ≤ 0) := by
    intro hcon
    have : (1 : Int) ≤ (a.length : Int) := h2
    omega
  simp [ll_fromarray, hle]

/-- Witness for C9 at `a = [7, 8]`, `len = 2`. -/
theorem claim_C9_witness :
    ((2 : Int) = (([7, 8] : List Int).length : Int) ∧ (1 : Int) ≤ 2) ∧
      ∃ l, ll_fromarray (some [7, 8]) 2 = some l ∧ ll_size l = 2 ∧
        ll_toarray l = some [7, 8] :=
  ⟨⟨by decide, by decide⟩, claim_C9 [7, 8] 2 (by decide) (by decide)⟩

/-- C10: the value sequence of `ll_remove L v` equals the value sequence
of `L` with the first occurrence of `v` deleted (which is `L` itself when
`v` does not occur). -/
theorem claim_C10 (L : List Int) (v : Int) :
    ll_remove L v = eraseFirstOcc L v :=
  ll_remove_eq_eraseFirstOcc L v

/-- Witness for C10 at `L = [1, 2, 2]`, `v = 2`. -/
theorem claim_C10_witness :
    ll_remove [1, 2, 2] 2 = eraseFirstOcc [1, 2, 2] 2 :=
  claim_C10 [1, 2, 2] 2
